import Mathlib

/-!
Verification of the zkiot utility scripts: the trace evaluator
(`z_vec.py`) and the constrained prime / generator search
(`prime_generator_finder.py`, `setup_zkp.py`).

The Python sources are shallowly embedded: Python `dict` becomes an
ordered association list (lookup returns `Option`, assignment updates in
place or appends a fresh key at the end, exactly like an insertion-ordered
Python dict), Python exceptions (KeyError / IndexError / ValueError)
become `none`, Python integers become `Int` (arbitrary precision), and
Python `%` with a positive modulus agrees with Lean `Int.emod`.
-/

namespace ZVec

/-- The modulus from `z_vec.py`.  The source assigns `p` three times; the
last assignment (`p = 1678321`) is the one in effect. -/
def p : Int := 1678321

/-- The initial register file from `z_vec.py` (`register_map`), an
insertion-ordered dictionary of the 32 canonical RISC-V register names. -/
def register_map : List (String × Int) :=
  [("zero", 0), ("ra", 1), ("sp", 2), ("gp", 3), ("tp", 4),
   ("t0", 5), ("t1", 6), ("t2", 7), ("s0", 8), ("s1", 9),
   ("a0", 10), ("a1", 11), ("a2", 12), ("a3", 13), ("a4", 14),
   ("a5", 15), ("a6", 16), ("a7", 17), ("s2", 18), ("s3", 19),
   ("s4", 20), ("s5", 21), ("s6", 22), ("s7", 23), ("s8", 24),
   ("s9", 25), ("s10", 26), ("s11", 27), ("t3", 28), ("t4", 29),
   ("t5", 30), ("t6", 31)]

/-- Python dictionary read `d[k]`: `some` value if present, `none` models
the KeyError. -/
def dictGet (k : String) : List (String × Int) → Option Int
  | [] => none
  | (k', v) :: rest => if k' = k then some v else dictGet k rest

/-- Python dictionary write `d[k] = v`: updates the existing entry in
place, or appends a brand-new entry at the end (insertion order). -/
def dictSet (k : String) (v : Int) : List (String × Int) → List (String × Int)
  | [] => [(k, v)]
  | (k', v') :: rest => if k' = k then (k, v) :: rest else (k', v') :: dictSet k v rest

/-- Decimal digits folded to a number, for the embedding of Python `int`. -/
def digitsToNat (ds : List Char) : Nat :=
  ds.foldl (fun a c => 10 * a + (c.toNat - 48)) 0

/-- Embedding of Python `int(s)` on the strings the scripts produce and
consume: an optional minus sign followed by decimal digits; anything else
is `none` (the ValueError). -/
def parseIntChars : List Char → Option Int
  | [] => none
  | c :: ds =>
      if c = '-' then
        (if ds.isEmpty then none
         else if ds.all Char.isDigit then some (-(digitsToNat ds : Int)) else none)
      else if (c :: ds).all Char.isDigit then some ((digitsToNat (c :: ds) : Int))
      else none

/-- Python `int` applied to a `String`. -/
def parseInt (s : String) : Option Int :=
  parseIntChars s.data

/-- One iteration of the evaluation loop of `z_vec.py` (lines 128-135):
`addi` / `add` / `mul` update the destination register; every other
mnemonic falls through all three `if`s and only the trailing
`w.append((reg[0], register_map[reg[0]] % p))` runs.  The result is the
updated register file and the appended write event; `none` models the
exceptions (missing operand, unknown register read, bad immediate). -/
def step (rm : List (String × Int)) (i : String × List String) :
    Option (List (String × Int) × (String × Int)) :=
  let inst := i.1
  let regs := i.2
  if inst = "addi" then
    match regs.get? 0, regs.get? 1, regs.get? 2 with
    | some d, some s, some immS =>
        (match dictGet s rm, parseInt immS with
         | some sv, some imm =>
             let rm' := dictSet d (sv + imm) rm
             (match dictGet d rm' with
              | some dv => some (rm', (d, dv % p))
              | none => none)
         | _, _ => none)
    | _, _, _ => none
  else if inst = "add" then
    match regs.get? 0, regs.get? 1, regs.get? 2 with
    | some d, some s1, some s2 =>
        (match dictGet s1 rm, dictGet s2 rm with
         | some v1, some v2 =>
             let rm' := dictSet d (v1 + v2) rm
             (match dictGet d rm' with
              | some dv => some (rm', (d, dv % p))
              | none => none)
         | _, _ => none)
    | _, _, _ => none
  else if inst = "mul" then
    match regs.get? 0, regs.get? 1, regs.get? 2 with
    | some d, some s1, some s2 =>
        (match dictGet s1 rm, dictGet s2 rm with
         | some v1, some v2 =>
             let rm' := dictSet d (v1 * v2) rm
             (match dictGet d rm' with
              | some dv => some (rm', (d, dv % p))
              | none => none)
         | _, _ => none)
    | _, _, _ => none
  else
    match regs.get? 0 with
    | some d =>
        (match dictGet d rm with
         | some dv => some (rm, (d, dv % p))
         | none => none)
    | none => none

/-- The whole evaluation loop: final register file plus the raw write
event list `W_raw`, one event per instruction, in trace order. -/
def evalTrace (rm : List (String × Int)) :
    List (String × List String) → Option (List (String × Int) × List (String × Int))
  | [] => some (rm, [])
  | i :: rest =>
      match step rm i with
      | none => none
      | some (rm', ev) =>
          match evalTrace rm' rest with
          | none => none
          | some (rmF, ws) => some (rmF, ev :: ws)

/-- The backward scan of `z_vec.py` (lines 139-144), written functionally.
The Python loop walks indices `len(w)-1, ..., 1` keeping a seen-name list
`t`; an event whose name is not yet seen is popped from `w` and its value
inserted at the front of `y`.  Processing a list right-to-left with the
head handled last is the same computation; the result is
(kept events, moved values, final seen list). -/
def scanBack : List (String × Int) → List String →
    List (String × Int) × List Int × List String
  | [], t => ([], [], t)
  | e :: rest, t =>
      let (keep, moved, t') := scanBack rest t
      if e.1 ∈ t' then (e :: keep, moved, t')
      else (keep, e.2 :: moved, e.1 :: t')

/-- Splitting `W_raw` into the final `W` (values of the kept events) and
`Y` (moved values).  Faithful to the Python `range(len(w) - 1, 0, -1)`:
the element at index 0 is never examined, so it is always kept in `W`. -/
def splitWY (wraw : List (String × Int)) : List Int × List Int :=
  match wraw with
  | [] => ([], [])
  | e :: rest =>
      let (keep, moved, _) := scanBack rest []
      ((e :: keep).map Prod.snd, moved)

/-- The `X` vector: the register file's values in canonical order, read
off before the evaluation loop runs (line 123 of `z_vec.py`). -/
def x_init : List Int := register_map.map Prod.snd

/-- The three output sequences `(X, W, Y)` of the trace evaluator, or
`none` if the evaluation loop raised. -/
def traceOutputs (prog : List (String × List String)) :
    Option (List Int × List Int × List Int) :=
  match evalTrace register_map prog with
  | none => none
  | some (_, wraw) =>
      let (wv, yv) := splitWY wraw
      some (x_init, wv, yv)

/-- The output vector `Z = [1] + X + W + Y` of `z_vec.py`, or `none` if
the run aborted (in which case nothing is written to disk). -/
def z_vec (prog : List (String × List String)) : Option (List Int) :=
  match traceOutputs prog with
  | none => none
  | some (xv, wv, yv) => some (1 :: (xv ++ wv ++ yv))

/-- The closed mnemonic set named by the specification. -/
def closedMnemonics : List String := ["add", "addi", "mul", "sub", "div", "ld"]

/-- The mnemonics that actually update the register file in `z_vec.py`. -/
def updateMnemonics : List String := ["add", "addi", "mul"]

/-- The 32 canonical register names, in order. -/
def canonicalNames : List String := register_map.map Prod.fst

/-- Events overwritten later: those followed (further along the list) by
another write to the same register. -/
def overwrittenLater : List (String × Int) → List (String × Int)
  | [] => []
  | e :: rest =>
      if e.1 ∈ rest.map Prod.fst then e :: overwrittenLater rest
      else overwrittenLater rest

/-- Events that are the final write of their register within the list. -/
def finalWrites : List (String × Int) → List (String × Int)
  | [] => []
  | e :: rest =>
      if e.1 ∈ rest.map Prod.fst then finalWrites rest
      else e :: finalWrites rest

/-- Events kept by a backward scan that starts with seen-set `t`. -/
def keptWith (t : List String) : List (String × Int) → List (String × Int)
  | [] => []
  | e :: rest =>
      if e.1 ∈ t ∨ e.1 ∈ rest.map Prod.fst then e :: keptWith t rest
      else keptWith t rest

/-- Values moved by a backward scan that starts with seen-set `t`. -/
def movedWith (t : List String) : List (String × Int) → List Int
  | [] => []
  | e :: rest =>
      if e.1 ∈ t ∨ e.1 ∈ rest.map Prod.fst then movedWith t rest
      else e.2 :: movedWith t rest

/-- Decimal digit characters of a natural number, most significant
first: the value of Python `str` on a nonnegative int.  File text is
modelled as a character list. -/
def natChars (n : Nat) : List Char :=
  if h : n < 10 then [Char.ofNat (48 + n)]
  else natChars (n / 10) ++ [Char.ofNat (48 + n % 10)]

/-- Python `str` on an int: an optional minus sign and decimal digits. -/
def intChars (i : Int) : List Char :=
  if i < 0 then '-' :: natChars i.natAbs else natChars i.toNat

/-- Python `', '.join(...)`: the parts concatenated with `", "` between
consecutive parts. -/
def joinSep : List (List Char) → List Char
  | [] => []
  | [x] => x
  | x :: x2 :: xs => x ++ (',' :: ' ' :: joinSep (x2 :: xs))

/-- The text written by `write_vector_to_file` for an integer vector. -/
def serializeVector (v : List Int) : List Char :=
  joinSep (v.map intChars)

/-- Splitting a character list at every `", "` separator. -/
def splitCS : List Char → List (List Char)
  | [] => [[]]
  | [c] => [[c]]
  | c :: c2 :: rest =>
      if c = ',' ∧ c2 = ' ' then [] :: splitCS rest
      else
        match splitCS (c2 :: rest) with
        | t :: ts => (c :: t) :: ts
        | [] => [[c]]

/-- Modelled from the spec: the re-parsing side of the round-trip (not in
the repository) reads the written text back as a comma-separated list of
integers; empty text parses to the empty sequence. -/
def parseVector (s : List Char) : Option (List Int) :=
  if s = [] then some [] else (splitCS s).mapM parseIntChars

end ZVec

namespace PrimeSearch

/-- A downward scan over `num, num-1, ..., 2` (the Python
`range(start, 1, -1)` loop body pattern): first hit wins. -/
def scanDown (P : Nat → Bool) : Nat → Option Nat
  | 0 => none
  | 1 => none
  | (k+2) => if P (k+2) then some (k+2) else scanDown P (k+1)

/-- A downward scan by stride `s` while the candidate exceeds 1 (the
Python `range(start, 1, -step)` pattern), with explicit fuel. -/
def scanDownBy (P : Nat → Bool) (s : Nat) : Nat → Nat → Option Nat
  | 0, _ => none
  | (f+1), cur =>
      if cur ≤ 1 then none
      else if P cur then some cur else scanDownBy P s f (cur - s)

/-- An upward scan over `cur, cur+1, ...` while below `lim` (the Python
`range(cur, lim, 1)` pattern), with explicit fuel. -/
def scanUp (P : Nat → Bool) (lim : Nat) : Nat → Nat → Option Nat
  | 0, _ => none
  | (f+1), cur =>
      if cur < lim then
        (if P cur then some cur else scanUp P lim f (cur + 1))
      else none

/-- The qualifying predicate of the specification: a prime below `2^31`
whose predecessor is divisible by both derived counts. -/
def qualifies (n m q : Nat) : Prop :=
  Nat.Prime q ∧ q < 2 ^ 31 ∧ (q - 1) % n = 0 ∧ (q - 1) % m = 0

end PrimeSearch

namespace PrimeGeneratorFinder

/-- `is_prime` from `prime_generator_finder.py`: trial division over
`range(2, int(n**0.5) + 1)`.  For every input this script can pass
(below `2^31`, hence exactly representable in a double), Python's
`int(n**0.5)` equals `Nat.sqrt n`: the float square root of an exact
integer `n ≤ 2^31` truncates to the integer square root. -/
def is_prime (n : Nat) : Bool :=
  if n ≤ 1 then false
  else (List.range' 2 (Nat.sqrt n - 1)).all (fun i => n % i != 0)

/-- `find_largest_prime` from `prime_generator_finder.py`: scan downward
from `2^31 - 1` for the first prime `num` with
`(num-1) % n == 0 and (num-1) % m == 0`; `None` when the range runs out. -/
def find_largest_prime (n m : Nat) : Option Nat :=
  PrimeSearch.scanDown
    (fun num => is_prime num && (num - 1) % n == 0 && (num - 1) % m == 0)
    (2 ^ 31 - 1)

end PrimeGeneratorFinder

namespace SetupZkp

/-- `is_prime` from `setup_zkp.py`: 2 is special-cased, even numbers are
rejected, and odd trial divisors run over `range(3, int(n**0.5)+1, 2)`,
a list of `(Nat.sqrt n - 1) / 2` odd values starting at 3. -/
def is_prime (n : Nat) : Bool :=
  if n ≤ 1 then false
  else if n = 2 then true
  else if n % 2 = 0 then false
  else (List.range' 3 ((Nat.sqrt n - 1) / 2) 2).all (fun i => n % i != 0)

/-- `find_large_prime` from `setup_zkp.py`: scan downward by steps of
`n*m` starting at `2^31 - 1 - ((2^31 - 2) % (n*m))` (the largest value
`≤ 2^31 - 1` congruent to 1 mod `n*m`), returning the first prime while
the candidate exceeds 1.  The congruence conditions are never rechecked —
they hold by construction of the stride.  (`m = int(m)` in the source;
the claims supply integer arguments.) -/
def find_large_prime (n m : Nat) : Option Nat :=
  let M := 2 ^ 31 - 1
  let s := n * m
  if s = 0 then none
  else PrimeSearch.scanDownBy is_prime s (M - (M - 1) % s) (M - (M - 1) % s)

/-- `find_small_prime` from `setup_zkp.py`: scan upward over
`range(1, 2^31 - 1)` for the first prime `num` with
`(num-1) % m == 0 and (num-1) % n == 0`. -/
def find_small_prime (n m : Nat) : Option Nat :=
  let M := 2 ^ 31 - 1
  PrimeSearch.scanUp
    (fun num => is_prime num && (num - 1) % m == 0 && (num - 1) % n == 0)
    M M 1

/-- Modelled from the spec: `is_primitive_root(g, p)` is a sympy library
call whose code is not in this repository.  Per the spec, `g` is a
primitive root modulo `q` iff the multiplicative order of `g` mod `q`
equals `q - 1`; i.e. the least `k ≥ 1` with `g^k ≡ 1 (mod q)` is exactly
`q - 1`. -/
def is_primitive_root (g q : Nat) : Bool :=
  ((List.range' 1 (q - 1)).find? (fun k => g ^ k % q == 1)) == some (q - 1)

/-- The generator loop of `find_largest_prime_and_generator`
(`setup_zkp.py` lines 90-97): `g` runs 2, 3, ... while `g < q`; the first
primitive root is returned; falling off the loop returns `None`. -/
def genLoop (q : Nat) : Nat → Nat → Option Nat
  | 0, _ => none
  | (f+1), g =>
      if g < q then
        (if is_primitive_root g q then some g else genLoop q f (g + 1))
      else none

/-- The generator search started at `g = 2`, with fuel `q` (the loop runs
at most `q - 2` times). -/
def find_generator (q : Nat) : Option Nat := genLoop q q 2

/-- `find_largest_prime_and_generator` from `setup_zkp.py`: `None` when
no prime was found (or the falsy 0), otherwise the pair `(p, g)` —
or `None` again when the generator loop falls through. -/
def find_largest_prime_and_generator (o : Option Nat) : Option (Nat × Nat) :=
  match o with
  | none => none
  | some q =>
      match find_generator q with
      | none => none
      | some g => some (q, g)

end SetupZkp

namespace PrimeSearch

/-- A successful downward scan returns the largest satisfying value in
`[2, s]`. -/
lemma scanDown_some (P : Nat → Bool) :
    ∀ s q, scanDown P s = some q →
      P q = true ∧ 2 ≤ q ∧ q ≤ s ∧ ∀ r, q < r → r ≤ s → P r = false := by
  intro s
  induction s using Nat.strong_induction_on with
  | _ s ih =>
    match s with
    | 0 => intro q h; exact Option.noConfusion h
    | 1 => intro q h; exact Option.noConfusion h
    | (k+2) =>
      intro q h
      simp only [scanDown] at h
      by_cases hp : P (k+2) = true
      · rw [if_pos hp] at h
        injection h with h
        subst h
        exact ⟨hp, by omega, le_refl _, fun r hr1 hr2 => by omega⟩
      · rw [if_neg hp] at h
        obtain ⟨hq, h2, h3, h4⟩ := ih (k+1) (by omega) q h
        refine ⟨hq, h2, by omega, fun r hr1 hr2 => ?_⟩
        rcases Nat.lt_or_ge r (k+2) with hlt | hge
        · exact h4 r hr1 (by omega)
        · have hr : r = k+2 := by omega
          subst hr
          exact Bool.eq_false_iff.mpr hp

/-- An exhausted downward scan means no value in `[2, s]` satisfies. -/
lemma scanDown_none (P : Nat → Bool) :
    ∀ s, scanDown P s = none → ∀ r, 2 ≤ r → r ≤ s → P r = false := by
  intro s
  induction s using Nat.strong_induction_on with
  | _ s ih =>
    match s with
    | 0 => intro h r hr1 hr2; omega
    | 1 => intro h r hr1 hr2; omega
    | (k+2) =>
      intro h r hr1 hr2
      simp only [scanDown] at h
      by_cases hp : P (k+2) = true
      · rw [if_pos hp] at h; exact Option.noConfusion h
      · rw [if_neg hp] at h
        rcases Nat.lt_or_ge r (k+2) with hlt | hge
        · exact ih (k+1) (by omega) h r hr1 (by omega)
        · have hr : r = k+2 := by omega
          subst hr
          exact Bool.eq_false_iff.mpr hp

/-- A successful strided downward scan returns the largest satisfying
value that is reachable from `cur` by steps of `s` and exceeds 1. -/
lemma scanDownBy_some (P : Nat → Bool) (s : Nat) (hs : 1 ≤ s) :
    ∀ f cur q, scanDownBy P s f cur = some q →
      P q = true ∧ 1 < q ∧ q ≤ cur ∧ (cur - q) % s = 0 ∧
      ∀ r, q < r → r ≤ cur → (cur - r) % s = 0 → P r = false := by
  intro f
  induction f with
  | zero => intro cur q h; exact Option.noConfusion h
  | succ f ih =>
      intro cur q h
      simp only [scanDownBy] at h
      by_cases hc : cur ≤ 1
      · rw [if_pos hc] at h; exact Option.noConfusion h
      rw [if_neg hc] at h
      by_cases hp : P cur = true
      · rw [if_pos hp] at h
        injection h with h
        subst h
        exact ⟨hp, by omega, le_refl _, by simp, fun r hr1 hr2 _ => by omega⟩
      · rw [if_neg hp] at h
        obtain ⟨hq, h1, h2, h3, h4⟩ := ih (cur - s) q h
        have hcurq : s ≤ cur - q := by omega
        refine ⟨hq, h1, by omega, ?_, ?_⟩
        · have : cur - q = (cur - s - q) + s := by omega
          rw [this, Nat.add_mod_right]
          exact h3
        · intro r hr1 hr2 hr3
          rcases Nat.lt_or_ge r cur with hlt | hge
          · have hdvd : s ∣ cur - r := Nat.dvd_of_mod_eq_zero hr3
            have hsle : s ≤ cur - r := Nat.le_of_dvd (by omega) hdvd
            have hmod2 : (cur - s - r) % s = 0 := by
              have heq : cur - s - r = (cur - r) - s := by omega
              obtain ⟨c, hc⟩ := Nat.dvd_sub' hdvd (dvd_refl s)
              rw [heq, hc]
              exact Nat.mul_mod_right s c
            exact h4 r hr1 (by omega) hmod2
          · have hr : r = cur := by omega
            subst hr
            exact Bool.eq_false_iff.mpr hp

/-- An exhausted strided downward scan (with fuel at least the start
value) means no reachable candidate above 1 satisfies. -/
lemma scanDownBy_none (P : Nat → Bool) (s : Nat) (hs : 1 ≤ s) :
    ∀ f cur, cur ≤ f → scanDownBy P s f cur = none →
      ∀ r, 1 < r → r ≤ cur → (cur - r) % s = 0 → P r = false := by
  intro f
  induction f with
  | zero => intro cur hf h r hr1 hr2 hr3; omega
  | succ f ih =>
      intro cur hf h r hr1 hr2 hr3
      simp only [scanDownBy] at h
      by_cases hc : cur ≤ 1
      · omega
      rw [if_neg hc] at h
      by_cases hp : P cur = true
      · rw [if_pos hp] at h; exact Option.noConfusion h
      · rw [if_neg hp] at h
        rcases Nat.lt_or_ge r cur with hlt | hge
        · have hdvd : s ∣ cur - r := Nat.dvd_of_mod_eq_zero hr3
          have hsle : s ≤ cur - r := Nat.le_of_dvd (by omega) hdvd
          have hmod2 : (cur - s - r) % s = 0 := by
            have heq : cur - s - r = (cur - r) - s := by omega
            obtain ⟨c, hc2⟩ := Nat.dvd_sub' hdvd (dvd_refl s)
            rw [heq, hc2]
            exact Nat.mul_mod_right s c
          exact ih (cur - s) (by omega) h r hr1 (by omega) hmod2
        · have hr : r = cur := by omega
          subst hr
          exact Bool.eq_false_iff.mpr hp

/-- A successful upward scan returns the least satisfying value in
`[cur, lim)`. -/
lemma scanUp_some (P : Nat → Bool) (lim : Nat) :
    ∀ f cur q, scanUp P lim f cur = some q →
      P q = true ∧ cur ≤ q ∧ q < lim ∧ ∀ r, cur ≤ r → r < q → P r = false := by
  intro f
  induction f with
  | zero => intro cur q h; exact Option.noConfusion h
  | succ f ih =>
      intro cur q h
      simp only [scanUp] at h
      by_cases hc : cur < lim
      · rw [if_pos hc] at h
        by_cases hp : P cur = true
        · rw [if_pos hp] at h
          injection h with h
          subst h
          exact ⟨hp, le_refl _, hc, fun r hr1 hr2 => by omega⟩
        · rw [if_neg hp] at h
          obtain ⟨hq, h1, h2, h3⟩ := ih (cur + 1) q h
          refine ⟨hq, by omega, h2, fun r hr1 hr2 => ?_⟩
          rcases Nat.lt_or_ge r (cur + 1) with hlt | hge
          · have hr : r = cur := by omega
            subst hr
            exact Bool.eq_false_iff.mpr hp
          · exact h3 r hge hr2
      · rw [if_neg hc] at h
        exact Option.noConfusion h

/-- An exhausted upward scan with sufficient fuel means no value in
`[cur, lim)` satisfies. -/
lemma scanUp_none (P : Nat → Bool) (lim : Nat) :
    ∀ f cur, lim ≤ cur + f → scanUp P lim f cur = none →
      ∀ r, cur ≤ r → r < lim → P r = false := by
  intro f
  induction f with
  | zero => intro cur hf h r hr1 hr2; omega
  | succ f ih =>
      intro cur hf h r hr1 hr2
      simp only [scanUp] at h
      by_cases hc : cur < lim
      · rw [if_pos hc] at h
        by_cases hp : P cur = true
        · rw [if_pos hp] at h; exact Option.noConfusion h
        · rw [if_neg hp] at h
          rcases Nat.lt_or_ge r (cur + 1) with hlt | hge
          · have hr : r = cur := by omega
            subst hr
            exact Bool.eq_false_iff.mpr hp
          · exact ih (cur + 1) (by omega) h r hge hr2
      · omega

/-- Divisibility gives a zero remainder. -/
lemma mod_zero_of_dvd {a b : Nat} (h : a ∣ b) : b % a = 0 := by
  obtain ⟨c, rfl⟩ := h
  exact Nat.mul_mod_right a c

/-- The 31st Mersenne number `2^31 - 1` is prime (Lucas-Lehmer). -/
lemma prime_mersenne31 : Nat.Prime 2147483647 := by
  have h : mersenne 31 = 2147483647 := by norm_num [mersenne]
  have h2 := lucas_lehmer_sufficiency 31 (by norm_num) (by norm_num)
  rwa [h] at h2

/-- `find?` over a contiguous range returns the first element satisfying
the predicate. -/
lemma find?_range'_eq (P : Nat → Bool) :
    ∀ len s x, s ≤ x → x < s + len → P x = true →
      (∀ k, s ≤ k → k < x → P k = false) →
      (List.range' s len).find? P = some x := by
  intro len
  induction len with
  | zero => intro s x h1 h2 hx hprev; omega
  | succ len ih =>
      intro s x h1 h2 hx hprev
      rw [List.range'_succ]
      by_cases hsx : s = x
      · subst hsx
        rw [List.find?_cons_of_pos _ hx]
      · have hPs : P s = false := hprev s (le_refl s) (by omega)
        rw [List.find?_cons_of_neg _ (by simp [hPs])]
        exact ih (s+1) x (by omega) (by omega) hx
          (fun k hk1 hk2 => hprev k (by omega) hk2)

end PrimeSearch

namespace ZVec

/-- A mnemonic that is none of `addi`, `add`, `mul` falls through to the
bare `w.append`: the register file is untouched and the event records the
destination's current value reduced mod `p`. -/
lemma step_other {rm : List (String × Int)} {inst : String} {regs : List String}
    {d : String} {v : Int}
    (h1 : inst ≠ "addi") (h2 : inst ≠ "add") (h3 : inst ≠ "mul")
    (hd : regs.get? 0 = some d) (hv : dictGet d rm = some v) :
    step rm (inst, regs) = some (rm, (d, v % p)) := by
  simp only [step, if_neg h1, if_neg h2, if_neg h3, hd, hv]

/-- The evaluation loop produces exactly one write event per instruction. -/
lemma evalTrace_length (prog : List (String × List String)) :
    ∀ rm rmF ws, evalTrace rm prog = some (rmF, ws) → ws.length = prog.length := by
  induction prog with
  | nil =>
      intro rm rmF ws h
      simp [evalTrace] at h
      simp [← h.2]
  | cons i rest ih =>
      intro rm rmF ws h
      simp only [evalTrace] at h
      cases hstep : step rm i with
      | none => rw [hstep] at h; exact Option.noConfusion h
      | some pr =>
          obtain ⟨rm', ev⟩ := pr
          rw [hstep] at h
          dsimp only at h
          cases htr : evalTrace rm' rest with
          | none => rw [htr] at h; exact Option.noConfusion h
          | some pr2 =>
              obtain ⟨rmF', ws'⟩ := pr2
              rw [htr] at h
              simp only [Option.some.injEq, Prod.mk.injEq] at h
              obtain ⟨-, hws⟩ := h
              have := ih rm' rmF' ws' htr
              simp [← hws, this]

/-- Every write event's value is of the form `a % p`. -/
lemma step_event_mod {rm rm' : List (String × Int)} {i : String × List String}
    {ev : String × Int} (h : step rm i = some (rm', ev)) : ∃ a : Int, ev.2 = a % p := by
  simp only [step] at h
  repeat' split at h
  all_goals first
    | exact Option.noConfusion h
    | exact ⟨_, (congrArg (fun x => x.2.2) (Option.some.inj h)).symm⟩

/-- Every value in `W_raw` is of the form `a % p`. -/
lemma evalTrace_events_mod (prog : List (String × List String)) :
    ∀ rm rmF ws, evalTrace rm prog = some (rmF, ws) →
      ∀ e ∈ ws, ∃ a : Int, e.2 = a % p := by
  induction prog with
  | nil =>
      intro rm rmF ws h
      simp [evalTrace] at h
      intro e he
      rw [h.2] at he
      exact absurd he (List.not_mem_nil e)
  | cons i rest ih =>
      intro rm rmF ws h
      simp only [evalTrace] at h
      cases hstep : step rm i with
      | none => rw [hstep] at h; exact Option.noConfusion h
      | some pr =>
          obtain ⟨rm', ev⟩ := pr
          rw [hstep] at h
          dsimp only at h
          cases htr : evalTrace rm' rest with
          | none => rw [htr] at h; exact Option.noConfusion h
          | some pr2 =>
              obtain ⟨rmF', ws'⟩ := pr2
              rw [htr] at h
              simp only [Option.some.injEq, Prod.mk.injEq] at h
              obtain ⟨-, hws⟩ := h
              intro e he
              rw [← hws] at he
              rcases List.mem_cons.mp he with rfl | hmem
              · exact step_event_mod hstep
              · exact ih rm' rmF' ws' htr e hmem

/-- The backward scan partitions its input: kept events plus moved values
account for every event exactly once. -/
lemma scanBack_length (l : List (String × Int)) :
    ∀ t, (scanBack l t).1.length + (scanBack l t).2.1.length = l.length := by
  induction l with
  | nil => intro t; simp [scanBack]
  | cons e rest ih =>
      intro t
      simp only [scanBack]
      obtain h := ih t
      cases hsb : scanBack rest t with
      | mk keep rest2 =>
        obtain ⟨moved, t'⟩ := rest2
        rw [hsb] at h
        by_cases hm : e.1 ∈ t' <;> simp [hm] at h ⊢ <;> omega

/-- Every kept event comes from the scanned list. -/
lemma scanBack_keep_subset (l : List (String × Int)) :
    ∀ t, ∀ e ∈ (scanBack l t).1, e ∈ l := by
  induction l with
  | nil => intro t e he; simp [scanBack] at he
  | cons a rest ih =>
      intro t e he
      simp only [scanBack] at he
      cases hsb : scanBack rest t with
      | mk keep rest2 =>
        obtain ⟨moved, t'⟩ := rest2
        rw [hsb] at he
        by_cases hm : a.1 ∈ t' <;> simp only [hm, if_true, if_false] at he
        · rcases List.mem_cons.mp he with rfl | he2
          · simp
          · exact List.mem_cons_of_mem a (ih t e (by rw [hsb]; exact he2))
        · exact List.mem_cons_of_mem a (ih t e (by rw [hsb]; exact he))

/-- Every moved value comes from the scanned list. -/
lemma scanBack_moved_subset (l : List (String × Int)) :
    ∀ t, ∀ v ∈ (scanBack l t).2.1, v ∈ l.map Prod.snd := by
  induction l with
  | nil => intro t v hv; simp [scanBack] at hv
  | cons a rest ih =>
      intro t v hv
      simp only [scanBack] at hv
      cases hsb : scanBack rest t with
      | mk keep rest2 =>
        obtain ⟨moved, t'⟩ := rest2
        rw [hsb] at hv
        by_cases hm : a.1 ∈ t' <;> simp only [hm, if_true, if_false] at hv
        · exact List.mem_cons_of_mem a.2 (ih t v (by rw [hsb]; exact hv))
        · rcases List.mem_cons.mp hv with rfl | hv2
          · simp
          · exact List.mem_cons_of_mem a.2 (ih t v (by rw [hsb]; exact hv2))

/-- Looking a key up fails exactly when the key is absent. -/
lemma dictGet_eq_none (k : String) (rm : List (String × Int)) :
    dictGet k rm = none ↔ k ∉ rm.map Prod.fst := by
  induction rm with
  | nil => simp [dictGet]
  | cons e rest ih =>
      obtain ⟨k', v⟩ := e
      by_cases hk : k' = k
      · subst hk
        simp [dictGet]
      · simp [dictGet, hk, ih, Ne.symm hk]

/-- Writing to an existing key leaves the key sequence unchanged. -/
lemma dictSet_keys_of_mem {k : String} {rm : List (String × Int)} (v : Int)
    (h : k ∈ rm.map Prod.fst) :
    (dictSet k v rm).map Prod.fst = rm.map Prod.fst := by
  induction rm with
  | nil => simp at h
  | cons e rest ih =>
      obtain ⟨k', v'⟩ := e
      by_cases hk : k' = k
      · subst hk
        simp [dictSet]
      · simp only [List.map_cons, List.mem_cons] at h
        rcases h with h | h
        · exact absurd h.symm hk
        · simp [dictSet, hk, ih h]

/-- Writing to a missing key appends it at the end (a brand-new entry). -/
lemma dictSet_keys_of_not_mem {k : String} {rm : List (String × Int)} (v : Int)
    (h : k ∉ rm.map Prod.fst) :
    (dictSet k v rm).map Prod.fst = rm.map Prod.fst ++ [k] := by
  induction rm with
  | nil => simp [dictSet]
  | cons e rest ih =>
      obtain ⟨k', v'⟩ := e
      simp only [List.map_cons, List.mem_cons] at h
      push_neg at h
      by_cases hk : k' = k
      · exact absurd hk.symm h.1
      · simp [dictSet, hk, ih h.2]

/-- A successful step whose destination register already exists keeps the
key sequence of the register file unchanged. -/
lemma step_keys {rm rm' : List (String × Int)} {i : String × List String}
    {ev : String × Int} (h : step rm i = some (rm', ev))
    (hmem : ev.1 ∈ rm.map Prod.fst) :
    rm'.map Prod.fst = rm.map Prod.fst := by
  simp only [step] at h
  repeat' split at h
  all_goals first
    | exact Option.noConfusion h
    | (injection h with h2
       injection h2 with hrm hev
       subst hrm
       subst hev
       first
         | rfl
         | exact dictSet_keys_of_mem _ hmem)

/-- `W` and `Y` together contain one value per raw write event. -/
lemma splitWY_length (l : List (String × Int)) :
    (splitWY l).1.length + (splitWY l).2.length = l.length := by
  cases l with
  | nil => simp [splitWY]
  | cons e rest =>
      simp only [splitWY]
      cases hsb : scanBack rest [] with
      | mk keep r2 =>
        obtain ⟨moved, t'⟩ := r2
        have h := scanBack_length rest []
        rw [hsb] at h
        simp only at h
        simp only [List.length_map, List.length_cons]
        omega

/-- Every value in `W` or `Y` is the value of some raw write event. -/
lemma splitWY_subset (l : List (String × Int)) :
    (∀ v ∈ (splitWY l).1, v ∈ l.map Prod.snd) ∧
    (∀ v ∈ (splitWY l).2, v ∈ l.map Prod.snd) := by
  cases l with
  | nil => simp [splitWY]
  | cons e rest =>
      simp only [splitWY]
      cases hsb : scanBack rest [] with
      | mk keep r2 =>
        obtain ⟨moved, t'⟩ := r2
        constructor
        · intro v hv
          simp only [List.map_cons, List.mem_cons, List.mem_map] at hv ⊢
          rcases hv with hv | ⟨ev, hev, rfl⟩
          · exact Or.inl hv
          · have := scanBack_keep_subset rest [] ev (by rw [hsb]; exact hev)
            exact Or.inr ⟨ev, this, rfl⟩
        · intro v hv
          have := scanBack_moved_subset rest [] v (by rw [hsb]; exact hv)
          simp only [List.map_cons, List.mem_cons]
          exact Or.inr this

/-- Characterization of the backward scan: an event is kept exactly when
its register was already seen or is written again later; otherwise its
value moves (in list order) to the front block, and the final seen-set
contains the initial one plus every scanned name. -/
lemma scanBack_spec (l : List (String × Int)) :
    ∀ t, (scanBack l t).1 = keptWith t l ∧
      (scanBack l t).2.1 = movedWith t l ∧
      (∀ s, s ∈ (scanBack l t).2.2 ↔ s ∈ t ∨ s ∈ l.map Prod.fst) := by
  induction l with
  | nil => intro t; simp [scanBack, keptWith, movedWith]
  | cons e rest ih =>
      intro t
      obtain ⟨h1, h2, h3⟩ := ih t
      simp only [scanBack]
      cases hsb : scanBack rest t with
      | mk keep r2 =>
        obtain ⟨moved, t'⟩ := r2
        rw [hsb] at h1 h2 h3
        dsimp only at h1 h2 h3
        by_cases hm : e.1 ∈ t'
        · have hcond : e.1 ∈ t ∨ e.1 ∈ rest.map Prod.fst := (h3 e.1).mp hm
          rw [if_pos hm]
          refine ⟨?_, ?_, ?_⟩
          · simp only [keptWith, if_pos hcond, h1]
          · simp only [movedWith, if_pos hcond, h2]
          · intro s
            constructor
            · intro hs
              rcases (h3 s).mp hs with hs | hs
              · exact Or.inl hs
              · exact Or.inr (by simp [hs])
            · intro hs
              rcases hs with hs | hs
              · exact (h3 s).mpr (Or.inl hs)
              · simp only [List.map_cons, List.mem_cons] at hs
                rcases hs with rfl | hs
                · exact hm
                · exact (h3 s).mpr (Or.inr hs)
        · have hcond : ¬(e.1 ∈ t ∨ e.1 ∈ rest.map Prod.fst) := fun hc => hm ((h3 e.1).mpr hc)
          rw [if_neg hm]
          refine ⟨?_, ?_, ?_⟩
          · simp only [keptWith, if_neg hcond, h1]
          · simp only [movedWith, if_neg hcond, h2]
          · intro s
            constructor
            · intro hs
              rcases List.mem_cons.mp hs with rfl | hs
              · exact Or.inr (by simp)
              · rcases (h3 s).mp hs with hs | hs
                · exact Or.inl hs
                · exact Or.inr (by simp [hs])
            · intro hs
              rcases hs with hs | hs
              · exact List.mem_cons_of_mem _ ((h3 s).mpr (Or.inl hs))
              · simp only [List.map_cons, List.mem_cons] at hs
                rcases hs with rfl | hs
                · exact List.mem_cons_self _ _
                · exact List.mem_cons_of_mem _ ((h3 s).mpr (Or.inr hs))

/-- With an empty initial seen-set, kept events are exactly those
overwritten later, and moved values are the values of the final writes. -/
lemma keptWith_nil (l : List (String × Int)) :
    keptWith [] l = overwrittenLater l ∧
    movedWith [] l = (finalWrites l).map Prod.snd := by
  induction l with
  | nil => simp [keptWith, movedWith, overwrittenLater, finalWrites]
  | cons e rest ih =>
      by_cases hc : e.1 ∈ rest.map Prod.fst
      · simp [keptWith, movedWith, overwrittenLater, finalWrites, hc, ih.1, ih.2]
      · simp [keptWith, movedWith, overwrittenLater, finalWrites, hc, ih.1, ih.2]

/-- The ten digit characters behave as expected. -/
lemma digit_char_facts : ∀ d, d < 10 →
    (Char.ofNat (48 + d)).isDigit = true ∧ (Char.ofNat (48 + d)).toNat = 48 + d ∧
    Char.ofNat (48 + d) ≠ ',' ∧ Char.ofNat (48 + d) ≠ '-' := by decide

/-- The digit expansion is never empty. -/
lemma natChars_ne_nil (n : Nat) : natChars n ≠ [] := by
  rw [natChars]
  by_cases h : n < 10
  · simp [h]
  · simp [h]

/-- Every character of the digit expansion is a decimal digit. -/
lemma natChars_digits (n : Nat) : ∀ c ∈ natChars n, c.isDigit = true := by
  induction n using Nat.strong_induction_on with
  | _ n ih =>
    rw [natChars]
    by_cases h : n < 10
    · simp only [h, dif_pos]
      intro c hc
      rcases List.mem_singleton.mp hc with rfl
      exact (digit_char_facts n h).1
    · simp only [h, dif_neg, not_false_iff]
      intro c hc
      rcases List.mem_append.mp hc with hc | hc
      · exact ih (n / 10) (by omega) c hc
      · rcases List.mem_singleton.mp hc with rfl
        exact (digit_char_facts (n % 10) (by omega)).1

/-- A digit character is not a comma and not a minus sign. -/
lemma isDigit_ne (c : Char) (h : c.isDigit = true) : c ≠ ',' ∧ c ≠ '-' := by
  constructor
  · intro hc
    subst hc
    exact Bool.noConfusion h
  · intro hc
    subst hc
    exact Bool.noConfusion h

/-- Folding the decimal digits of `n` onto an accumulator. -/
lemma natChars_foldl (n : Nat) : ∀ a : Nat,
    (natChars n).foldl (fun acc c => 10 * acc + (c.toNat - 48)) a =
      a * 10 ^ (natChars n).length + n := by
  induction n using Nat.strong_induction_on with
  | _ n ih =>
    intro a
    rw [natChars]
    by_cases h : n < 10
    · simp only [h, dif_pos, List.foldl_cons, List.foldl_nil, List.length_singleton]
      rw [(digit_char_facts n h).2.1]
      omega
    · simp only [h, dif_neg, not_false_iff, List.foldl_append, List.foldl_cons,
        List.foldl_nil, List.length_append, List.length_singleton]
      rw [ih (n / 10) (by omega) a, (digit_char_facts (n % 10) (by omega)).2.1]
      have hdm := Nat.div_add_mod n 10
      rw [pow_succ, ← mul_assoc]
      omega

/-- The digit expansion parses back to the original number. -/
lemma digitsToNat_natChars (n : Nat) : digitsToNat (natChars n) = n := by
  rw [digitsToNat, natChars_foldl]
  omega

/-- Serializing one integer and parsing it back is the identity. -/
lemma parseIntChars_intChars (i : Int) : parseIntChars (intChars i) = some i := by
  rw [intChars]
  by_cases hneg : i < 0
  · rw [if_pos hneg]
    rw [parseIntChars]
    rw [if_pos rfl]
    rw [if_neg (by simp [natChars_ne_nil])]
    rw [if_pos (List.all_eq_true.mpr (fun c hc => natChars_digits _ c hc))]
    rw [digitsToNat_natChars]
    congr 1
    omega
  · rw [if_neg hneg]
    cases hnc : natChars i.toNat with
    | nil => exact absurd hnc (natChars_ne_nil _)
    | cons c cs =>
        have hcd : c.isDigit = true := by
          apply natChars_digits i.toNat
          rw [hnc]
          exact List.mem_cons_self _ _
        rw [parseIntChars]
        rw [if_neg (isDigit_ne c hcd).2]
        rw [if_pos (by
          rw [← hnc]
          exact List.all_eq_true.mpr (fun x hx => natChars_digits _ x hx))]
        rw [← hnc, digitsToNat_natChars]
        congr 1
        omega

/-- Splitting after a comma-free part peels that part off. -/
lemma splitCS_append (part : List Char) :
    ∀ rest, (∀ c ∈ part, c ≠ ',') →
      splitCS (part ++ ',' :: ' ' :: rest) = part :: splitCS rest := by
  induction part with
  | nil =>
      intro rest hc
      simp only [List.nil_append]
      rw [splitCS, if_pos ⟨rfl, rfl⟩]
  | cons c tail ih =>
      intro rest hc
      cases tail with
      | nil =>
          simp only [List.cons_append, List.nil_append]
          rw [splitCS, if_neg (by
            rintro ⟨h1, -⟩
            exact hc c (List.mem_cons_self _ _) h1)]
          rw [splitCS, if_pos ⟨rfl, rfl⟩]
      | cons c2 tail2 =>
          simp only [List.cons_append]
          rw [splitCS, if_neg (by
            rintro ⟨h1, -⟩
            exact hc c (List.mem_cons_self _ _) h1)]
          have := ih rest (fun x hx => hc x (List.mem_cons_of_mem c hx))
          simp only [List.cons_append] at this
          rw [this]

/-- A comma-free string does not split. -/
lemma splitCS_single (part : List Char) :
    (∀ c ∈ part, c ≠ ',') → splitCS part = [part] := by
  induction part with
  | nil => intro h; rfl
  | cons c tail ih =>
      intro hc
      cases tail with
      | nil => rfl
      | cons c2 tail2 =>
          rw [splitCS, if_neg (by
            rintro ⟨h1, -⟩
            exact hc c (List.mem_cons_self _ _) h1)]
          rw [ih (fun x hx => hc x (List.mem_cons_of_mem c hx))]

/-- Splitting is a left inverse of joining for nonempty lists of
comma-free parts. -/
lemma splitCS_joinSep (parts : List (List Char)) :
    parts ≠ [] → (∀ pt ∈ parts, ∀ c ∈ pt, c ≠ ',') →
      splitCS (joinSep parts) = parts := by
  induction parts with
  | nil => intro h; exact absurd rfl h
  | cons pt rest ih =>
      intro hne hcf
      cases rest with
      | nil =>
          rw [joinSep]
          exact splitCS_single pt (hcf pt (List.mem_cons_self _ _))
      | cons p2 ps =>
          rw [joinSep, splitCS_append pt _ (hcf pt (List.mem_cons_self _ _))]
          rw [ih (List.cons_ne_nil p2 ps) (fun x hx => hcf x (List.mem_cons_of_mem pt hx))]

/-- No comma occurs in a serialized integer. -/
lemma intChars_no_comma (i : Int) : ∀ c ∈ intChars i, c ≠ ',' := by
  rw [intChars]
  by_cases hneg : i < 0
  · rw [if_pos hneg]
    intro c hc
    rcases List.mem_cons.mp hc with rfl | hc
    · decide
    · exact (isDigit_ne c (natChars_digits _ c hc)).1
  · rw [if_neg hneg]
    intro c hc
    exact (isDigit_ne c (natChars_digits _ c hc)).1

/-- Parsing each serialized integer back yields the original vector. -/
lemma mapM_parse (v : List Int) :
    (v.map intChars).mapM parseIntChars = some v := by
  induction v with
  | nil => rfl
  | cons i rest ih =>
      rw [List.map_cons, List.mapM_cons, parseIntChars_intChars, ih]
      rfl

/-- The serialized text of a nonempty vector is nonempty. -/
lemma serializeVector_ne_nil (i : Int) (rest : List Int) :
    serializeVector (i :: rest) ≠ [] := by
  rw [serializeVector, List.map_cons]
  have hi : intChars i ≠ [] := by
    rw [intChars]
    by_cases hneg : i < 0
    · simp [hneg]
    · simp [hneg, natChars_ne_nil]
  cases hr : rest.map intChars with
  | nil =>
      rw [joinSep]
      exact hi
  | cons x xs =>
      rw [joinSep]
      intro h
      rcases List.append_eq_nil.mp h with ⟨-, h2⟩
      exact List.noConfusion h2

/-- C10: a parsed instruction whose mnemonic is not `add`, `addi` or `mul`
(such as `ld`, `sub`, `div`, or any unknown string) leaves the register
file unchanged, yet still appends one write event pairing the
destination register with that register's current value modulo `p`. -/
theorem C10_unknown_mnemonic_frame_effect
    (rm : List (String × Int)) (inst : String) (regs : List String)
    (d : String) (v : Int)
    (hinst : inst ∉ updateMnemonics)
    (hd : regs.get? 0 = some d) (hv : dictGet d rm = some v) :
    step rm (inst, regs) = some (rm, (d, v % p)) := by
  have h1 : inst ≠ "addi" := by rintro rfl; exact hinst (by decide)
  have h2 : inst ≠ "add" := by rintro rfl; exact hinst (by decide)
  have h3 : inst ≠ "mul" := by rintro rfl; exact hinst (by decide)
  exact step_other h1 h2 h3 hd hv

/-- Witness for C10 at a concrete `ld` instruction from the canonical
register file. -/
theorem C10_witness :
    step register_map ("ld", ["t0", "8(sp)"]) = some (register_map, ("t0", 5 % p)) :=
  C10_unknown_mnemonic_frame_effect register_map "ld" ["t0", "8(sp)"] "t0" 5
    (by decide) (by decide) (by decide)

/-- C5: whenever the evaluator completes, `X` has exactly 32 entries and
`len(X) + len(W) + len(Y) = 32 + number of instructions`: each
instruction contributes exactly one entry to `W` or to `Y`. -/
theorem C5_length_invariant (prog : List (String × List String))
    (xv wv yv : List Int) (h : traceOutputs prog = some (xv, wv, yv)) :
    xv.length = 32 ∧ xv.length + wv.length + yv.length = 32 + prog.length := by
  unfold traceOutputs at h
  cases htr : evalTrace register_map prog with
  | none => rw [htr] at h; exact Option.noConfusion h
  | some pr =>
      obtain ⟨rmF, wraw⟩ := pr
      rw [htr] at h
      dsimp only at h
      cases hsp : splitWY wraw with
      | mk wv' yv' =>
        rw [hsp] at h
        injection h with h2
        injection h2 with hx h3
        injection h3 with hw hy
        subst hx
        subst hw
        subst hy
        have hlen := evalTrace_length prog register_map rmF wraw htr
        have hsplit := splitWY_length wraw
        rw [hsp] at hsplit
        dsimp only at hsplit
        constructor
        · decide
        · have h32 : x_init.length = 32 := by decide
          dsimp only
          omega

/-- Witness for C5 on a concrete two-instruction trace. -/
theorem C5_witness :
    x_init.length = 32 ∧
    x_init.length + ([5] : List Int).length + ([10] : List Int).length =
      32 + ([("addi", ["t0", "zero", "5"]), ("add", ["t1", "t0", "t0"])] :
        List (String × List String)).length :=
  C5_length_invariant [("addi", ["t0", "zero", "5"]), ("add", ["t1", "t0", "t0"])]
    x_init [5] [10] (by decide)

/-- C8: every element of a successfully produced output vector
`Z = [1] ++ X ++ W ++ Y` lies in the range `[0, p)`: the leading 1 and
the 32 initial register values are below `p`, and every `W`/`Y` entry was
reduced modulo `p` when its write event was recorded. -/
theorem C8_output_range (prog : List (String × List String)) (z : List Int)
    (h : z_vec prog = some z) : ∀ v ∈ z, 0 ≤ v ∧ v < p := by
  unfold z_vec at h
  cases hto : traceOutputs prog with
  | none => rw [hto] at h; exact Option.noConfusion h
  | some tr =>
      obtain ⟨xv, rest0⟩ := tr
      obtain ⟨wv, yv⟩ := rest0
      rw [hto] at h
      have hz := Option.some.inj h
      subst hz
      unfold traceOutputs at hto
      cases htr : evalTrace register_map prog with
      | none => rw [htr] at hto; exact Option.noConfusion hto
      | some pr =>
          obtain ⟨rmF, wraw⟩ := pr
          rw [htr] at hto
          dsimp only at hto
          injection hto with h2
          injection h2 with hx h3
          injection h3 with hw hy
          subst hx
          subst hw
          subst hy
          intro v hv
          have hmodbound : ∀ u : Int, (∃ a : Int, u = a % p) → 0 ≤ u ∧ u < p := by
            rintro u ⟨a, rfl⟩
            exact ⟨Int.emod_nonneg a (by decide), Int.emod_lt_of_pos a (by decide)⟩
          have hwraw := evalTrace_events_mod prog register_map rmF wraw htr
          have hsub := splitWY_subset wraw
          rcases List.mem_cons.mp hv with rfl | hv2
          · exact ⟨by decide, by decide⟩
          rcases List.mem_append.mp hv2 with hvx | hvwy
          · rcases List.mem_append.mp hvx with hvx | hvw
            · have hxr : ∀ u ∈ x_init, 0 ≤ u ∧ u < p := by decide
              exact hxr v hvx
            · have hmem := hsub.1 v hvw
              obtain ⟨e, he, hev⟩ := List.mem_map.mp hmem
              exact hmodbound v (by rw [← hev]; exact hwraw e he)
          · have hmem := hsub.2 v hvwy
            obtain ⟨e, he, hev⟩ := List.mem_map.mp hmem
            exact hmodbound v (by rw [← hev]; exact hwraw e he)

/-- Witness for C8: the concrete element 10 of the concrete output vector
of a two-instruction trace is in range. -/
theorem C8_witness : (0 : Int) ≤ 10 ∧ (10 : Int) < p :=
  C8_output_range [("addi", ["t0", "zero", "5"]), ("add", ["t1", "t0", "t0"])]
    (1 :: (x_init ++ [5] ++ [10])) (by decide) 10 (by decide)

/-- C4 fails as stated: an `addi` whose destination register is not one of
the 32 canonical names does not fail; the Python dict assignment creates a
brand-new 33rd entry.  Concretely, `addi xx, t0, 5` succeeds from the
canonical register file and leaves a register map whose key sequence is
not the canonical 32. -/
theorem C4_counterexample :
    step register_map ("addi", ["xx", "t0", "5"]) =
      some (register_map ++ [("xx", 10)], ("xx", 10)) ∧
    "xx" ∉ canonicalNames ∧
    (register_map ++ [("xx", 10)]).map Prod.fst ≠ canonicalNames ∧
    ((register_map ++ [("xx", 10)]).map Prod.fst).length = 33 := by decide

/-- C4 amended: a step whose destination register already exists preserves
the key sequence of the register file exactly (in particular, from the
canonical file with a canonical destination, the 32 canonical names are
preserved); and reading any name absent from the register file is a fatal
lookup error.  Only a write to a non-canonical destination escapes the
invariant, by creating a new entry. -/
theorem C4_amended_register_invariant :
    (∀ (rm rm' : List (String × Int)) (i : String × List String) (ev : String × Int),
        step rm i = some (rm', ev) → ev.1 ∈ rm.map Prod.fst →
        rm'.map Prod.fst = rm.map Prod.fst) ∧
    (∀ (rm : List (String × Int)) (k : String), k ∉ rm.map Prod.fst →
        dictGet k rm = none) := by
  constructor
  · intro rm rm' i ev h hmem
    exact step_keys h hmem
  · intro rm k hk
    exact (dictGet_eq_none k rm).mpr hk

/-- Witness for C4 (amended) at a concrete canonical-destination step. -/
theorem C4_witness :
    (dictSet "t0" 4 register_map).map Prod.fst = register_map.map Prod.fst :=
  C4_amended_register_invariant.1 register_map (dictSet "t0" 4 register_map)
    ("addi", ["t0", "zero", "4"]) ("t0", 4) (by decide) (by decide)

/-- C3 fails as stated: a line whose mnemonic is outside the closed set
{add, addi, mul, sub, div, ld} is not rejected at all.  The parser never
checks mnemonics, and the evaluation loop treats an unknown mnemonic as a
no-op that still records a write event, so the run completes and output
is produced. -/
theorem C3_counterexample :
    "foo" ∉ closedMnemonics ∧ z_vec [("foo", ["t0", "t1", "t2"])] ≠ none := by decide

/-- C3 amended: the evaluator performs no mnemonic validation — any
mnemonic outside {add, addi, mul} whose destination names an existing
register is accepted as a no-op write; what is fatal is reading a
register absent from the file (KeyError), a non-integer immediate of an
`addi` (ValueError), and a write-event lookup of a missing destination
for non-updating mnemonics; on any fatal step the run produces no output
at all. -/
theorem C3_amended_error_handling :
    (∀ (rm : List (String × Int)) (inst : String) (regs : List String)
        (d : String) (v : Int), inst ∉ updateMnemonics → regs.get? 0 = some d →
        dictGet d rm = some v → (step rm (inst, regs)).isSome = true) ∧
    (∀ (rm : List (String × Int)) (d s immS : String), parseInt immS = none →
        step rm ("addi", [d, s, immS]) = none) ∧
    (∀ (rm : List (String × Int)) (d s1 s2 : String), dictGet s1 rm = none →
        step rm ("add", [d, s1, s2]) = none) ∧
    (∀ (rm : List (String × Int)) (d s1 s2 : String), dictGet s1 rm = none →
        step rm ("mul", [d, s1, s2]) = none) ∧
    (∀ (rm : List (String × Int)) (inst : String) (regs : List String) (d : String),
        inst ∉ updateMnemonics → regs.get? 0 = some d → dictGet d rm = none →
        step rm (inst, regs) = none) ∧
    (∀ prog : List (String × List String), evalTrace register_map prog = none →
        z_vec prog = none) := by
  have hne1 : ("add" : String) ≠ "addi" := by decide
  have hne2 : ("mul" : String) ≠ "addi" := by decide
  have hne3 : ("mul" : String) ≠ "add" := by decide
  refine ⟨?_, ?_, ?_, ?_, ?_, ?_⟩
  · intro rm inst regs d v hinst hd hv
    have h1 : inst ≠ "addi" := by rintro rfl; exact hinst (by decide)
    have h2 : inst ≠ "add" := by rintro rfl; exact hinst (by decide)
    have h3 : inst ≠ "mul" := by rintro rfl; exact hinst (by decide)
    rw [step_other h1 h2 h3 hd hv]
    rfl
  · intro rm d s immS h
    cases hsv : dictGet s rm <;> simp [step, hsv, h]
  · intro rm d s1 s2 h
    simp [step, if_neg hne1, h]
  · intro rm d s1 s2 h
    simp [step, if_neg hne2, if_neg hne3, h]
  · intro rm inst regs d hinst hd hget
    have h1 : inst ≠ "addi" := by rintro rfl; exact hinst (by decide)
    have h2 : inst ≠ "add" := by rintro rfl; exact hinst (by decide)
    have h3 : inst ≠ "mul" := by rintro rfl; exact hinst (by decide)
    simp only [step, if_neg h1, if_neg h2, if_neg h3, hd, hget]
  · intro prog h
    simp [z_vec, traceOutputs, h]

/-- Witness for C3 (amended) at concrete fatal and non-fatal lines. -/
theorem C3_witness :
    (step register_map ("foo", ["t0"])).isSome = true ∧
    step register_map ("addi", ["t0", "t1", "7b"]) = none ∧
    step register_map ("add", ["t0", "qq", "t2"]) = none ∧
    z_vec [("add", ["t0", "qq", "t2"])] = none :=
  ⟨C3_amended_error_handling.1 register_map "foo" ["t0"] "t0" 5
      (by decide) (by decide) (by decide),
   C3_amended_error_handling.2.1 register_map "t0" "t1" "7b" (by decide),
   C3_amended_error_handling.2.2.1 register_map "t0" "qq" "t2" (by decide),
   C3_amended_error_handling.2.2.2.2.2 [("add", ["t0", "qq", "t2"])] (by decide)⟩

/-- C1 fails as stated: the Python backward scan runs over
`range(len(w) - 1, 0, -1)` and never examines index 0, so the very first
instruction's write never moves to `Y`.  Concretely, for the
single-instruction trace `addi t0, zero, 5` the last (only) write to `t0`
has value 5, yet the evaluator produces `W = [5]` and `Y = []` — the
claim required 5 to appear in `Y` and `W` to be empty. -/
theorem C1_counterexample :
    traceOutputs [("addi", ["t0", "zero", "5"])] = some (x_init, [5], []) := by decide

/-- C1 amended: the backward scan classifies only the write events after
the first one.  The first event's value always stays at the head of `W`;
among the remaining events, exactly those that are the final write of
their register move (in trace order) to `Y`, and the events overwritten
later in the remainder stay in `W`. -/
theorem C1_amended_backward_scan (e : String × Int) (rest : List (String × Int)) :
    splitWY (e :: rest) =
      (e.2 :: (overwrittenLater rest).map Prod.snd,
        (finalWrites rest).map Prod.snd) := by
  simp only [splitWY]
  cases hsb : scanBack rest [] with
  | mk keep r2 =>
    obtain ⟨moved, t'⟩ := r2
    obtain ⟨h1, h2, -⟩ := scanBack_spec rest []
    rw [hsb] at h1 h2
    dsimp only at h1 h2 ⊢
    rw [h1, h2, (keptWith_nil rest).1, (keptWith_nil rest).2]
    simp

/-- C9: serializing any integer vector with `write_vector_to_file`
(decimal representations joined by `", "`) and re-parsing the text as a
comma-separated integer list reproduces exactly the original sequence —
no precision loss, no reordering. -/
theorem C9_roundtrip (v : List Int) :
    parseVector (serializeVector v) = some v := by
  cases v with
  | nil => rfl
  | cons i rest =>
      rw [parseVector, if_neg (serializeVector_ne_nil i rest)]
      rw [serializeVector, splitCS_joinSep _ (by simp)
        (by
          intro pt hpt
          obtain ⟨j, -, rfl⟩ := List.mem_map.mp hpt
          exact intChars_no_comma j)]
      exact mapM_parse (i :: rest)

end ZVec

namespace PrimeGeneratorFinder

/-- The trial-division test agrees with mathematical primality. -/
lemma is_prime_iff (n : Nat) : is_prime n = true ↔ Nat.Prime n := by
  unfold is_prime
  by_cases h1 : n ≤ 1
  · simp only [h1, if_true, Bool.false_eq_true, false_iff]
    intro hp
    have := hp.two_le
    omega
  · rw [if_neg h1]
    push_neg at h1
    rw [List.all_eq_true, Nat.prime_def_le_sqrt]
    constructor
    · intro hall
      refine ⟨by omega, fun M hM1 hM2 hdvd => ?_⟩
      have hs1 : 1 ≤ Nat.sqrt n := Nat.sqrt_pos.mpr (by omega)
      have hmem : M ∈ List.range' 2 (Nat.sqrt n - 1) := by
        rw [List.mem_range'_1]
        omega
      have hb := hall M hmem
      simp only [bne_iff_ne, ne_eq] at hb
      obtain ⟨c, rfl⟩ := hdvd
      exact hb (Nat.mul_mod_right M c)
    · rintro ⟨h2, hforall⟩ i hi
      rw [List.mem_range'_1] at hi
      simp only [bne_iff_ne, ne_eq]
      intro hmod
      exact hforall i hi.1 (by omega) (Nat.dvd_of_mod_eq_zero hmod)

/-- Decoding the search predicate of `find_largest_prime`. -/
lemma pred_iff (n m r : Nat) :
    (is_prime r && (r - 1) % n == 0 && (r - 1) % m == 0) = true ↔
      (Nat.Prime r ∧ (r - 1) % n = 0 ∧ (r - 1) % m = 0) := by
  simp [Bool.and_eq_true, beq_iff_eq, is_prime_iff, and_assoc]

/-- A returned value of `find_largest_prime` qualifies and is the largest
qualifying value. -/
lemma find_largest_prime_sound {n m q : Nat}
    (h : find_largest_prime n m = some q) :
    PrimeSearch.qualifies n m q ∧ ∀ r, PrimeSearch.qualifies n m r → r ≤ q := by
  have hM : (2 : Nat) ^ 31 = 2147483648 := by norm_num
  obtain ⟨hq, h2, h3, h4⟩ := PrimeSearch.scanDown_some _ _ _ h
  rw [pred_iff] at hq
  refine ⟨⟨hq.1, by omega, hq.2.1, hq.2.2⟩, fun r hr => ?_⟩
  by_contra hlt
  push_neg at hlt
  have hfalse := h4 r hlt (by have := hr.2.1; omega)
  have htrue := (pred_iff n m r).mpr ⟨hr.1, hr.2.2.1, hr.2.2.2⟩
  rw [hfalse] at htrue
  exact Bool.noConfusion htrue

/-- If any value qualifies, `find_largest_prime` returns one. -/
lemma find_largest_prime_complete {n m r : Nat}
    (hr : PrimeSearch.qualifies n m r) :
    ∃ q, find_largest_prime n m = some q := by
  have hM : (2 : Nat) ^ 31 = 2147483648 := by norm_num
  cases hfind : find_largest_prime n m with
  | some q => exact ⟨q, rfl⟩
  | none =>
      exfalso
      have hfalse := PrimeSearch.scanDown_none _ _ hfind r hr.1.two_le
        (by have := hr.2.1; omega)
      have htrue := (pred_iff n m r).mpr ⟨hr.1, hr.2.2.1, hr.2.2.2⟩
      rw [hfalse] at htrue
      exact Bool.noConfusion htrue

end PrimeGeneratorFinder

namespace SetupZkp

/-- The odd-divisor trial test agrees with mathematical primality. -/
lemma is_prime_odd_iff (n : Nat) : is_prime n = true ↔ Nat.Prime n := by
  unfold is_prime
  by_cases h1 : n ≤ 1
  · simp only [h1, if_true, Bool.false_eq_true, false_iff]
    intro hp
    have := hp.two_le
    omega
  rw [if_neg h1]
  push_neg at h1
  by_cases h2 : n = 2
  · subst h2
    simp [Nat.prime_two]
  rw [if_neg h2]
  by_cases h3 : n % 2 = 0
  · rw [if_pos h3]
    simp only [Bool.false_eq_true, false_iff]
    intro hp
    have hdvd : (2 : Nat) ∣ n := Nat.dvd_of_mod_eq_zero h3
    rcases (Nat.Prime.eq_one_or_self_of_dvd hp 2 hdvd) with h | h
    · omega
    · exact h2 h.symm
  rw [if_neg h3]
  have hodd : n % 2 = 1 := by omega
  rw [List.all_eq_true, Nat.prime_def_le_sqrt]
  constructor
  · intro hall
    refine ⟨by omega, fun M hM1 hM2 hdvd => ?_⟩
    have hModd : M % 2 = 1 := by
      rcases Nat.mod_two_eq_zero_or_one M with hM | hM
      · exfalso
        have h2d : (2 : Nat) ∣ M := Nat.dvd_of_mod_eq_zero hM
        obtain ⟨c, hc⟩ := dvd_trans h2d hdvd
        omega
      · exact hM
    have hM3 : 3 ≤ M := by omega
    have hmem : M ∈ List.range' 3 ((Nat.sqrt n - 1) / 2) 2 := by
      rw [List.mem_range']
      exact ⟨(M - 3) / 2, by omega, by omega⟩
    have hb := hall M hmem
    simp only [bne_iff_ne, ne_eq] at hb
    obtain ⟨c, rfl⟩ := hdvd
    exact hb (Nat.mul_mod_right M c)
  · rintro ⟨hn2, hforall⟩ i hi
    rw [List.mem_range'] at hi
    obtain ⟨j, hj, rfl⟩ := hi
    simp only [bne_iff_ne, ne_eq]
    intro hmod
    exact hforall (3 + 2 * j) (by omega) (by omega)
      (Nat.dvd_of_mod_eq_zero hmod)

/-- Subtracting a value's residue leaves a multiple: the scan start of
`find_large_prime` is congruent to 1 modulo the stride. -/
lemma sub_mod_mod (a s : Nat) : (a - a % s) % s = 0 := by
  have hdm := Nat.div_add_mod a s
  have heq : a - a % s = s * (a / s) := by omega
  rw [heq]
  exact Nat.mul_mod_right s (a / s)

/-- Congruence translation along the stride: for candidates at or below a
start value congruent to 1 mod `s`, distance-from-start divisibility is
the same as `(r - 1) % s = 0`. -/
lemma stride_translate {s start r : Nat} (hstart : (start - 1) % s = 0)
    (h1 : 1 ≤ r) (h2 : r ≤ start) : (start - r) % s = 0 ↔ (r - 1) % s = 0 := by
  have hd1 : s ∣ start - 1 := Nat.dvd_of_mod_eq_zero hstart
  constructor
  · intro hh
    have hd2 : s ∣ start - r := Nat.dvd_of_mod_eq_zero hh
    have heq : r - 1 = (start - 1) - (start - r) := by omega
    obtain ⟨c, hc⟩ := Nat.dvd_sub' hd1 hd2
    rw [heq, hc]
    exact Nat.mul_mod_right s c
  · intro hh
    have hd2 : s ∣ r - 1 := Nat.dvd_of_mod_eq_zero hh
    have heq : start - r = (start - 1) - (r - 1) := by omega
    obtain ⟨c, hc⟩ := Nat.dvd_sub' hd1 hd2
    rw [heq, hc]
    exact Nat.mul_mod_right s c

/-- Any value `≤ M` congruent to 1 mod `s` is at most the scan start
`M - (M-1) % s`. -/
lemma le_scan_start {s M r : Nat} (hs : 0 < s) (h1 : 1 ≤ r) (hr : r ≤ M)
    (hmod : (r - 1) % s = 0) : r ≤ M - (M - 1) % s := by
  obtain ⟨j, hj⟩ := Nat.dvd_of_mod_eq_zero hmod
  have hj2 : j ≤ (M - 1) / s := (Nat.le_div_iff_mul_le hs).mpr
    (by rw [Nat.mul_comm]; omega)
  have hmul : s * j ≤ s * ((M - 1) / s) := Nat.mul_le_mul_left s hj2
  have hdm := Nat.div_add_mod (M - 1) s
  omega

/-- A returned value of `find_large_prime` is prime, below `2^31`,
congruent to 1 mod `n*m`, and is the largest such value. -/
lemma find_large_prime_sound {n m q : Nat} (hn : 0 < n) (hm : 0 < m)
    (h : find_large_prime n m = some q) :
    (Nat.Prime q ∧ q < 2 ^ 31 ∧ (q - 1) % (n * m) = 0) ∧
    ∀ r, Nat.Prime r → r < 2 ^ 31 → (r - 1) % (n * m) = 0 → r ≤ q := by
  have hM : (2 : Nat) ^ 31 = 2147483648 := by norm_num
  have hs : 0 < n * m := Nat.mul_pos hn hm
  rw [find_large_prime, if_neg (by omega)] at h
  obtain ⟨hq, h1, h2, h3, h4⟩ := PrimeSearch.scanDownBy_some _ _ hs _ _ _ h
  rw [is_prime_odd_iff] at hq
  have hstartmod : ((2 ^ 31 - 1 - (2 ^ 31 - 1 - 1) % (n * m)) - 1) % (n * m) = 0 := by
    have hb : (2 ^ 31 - 1 - 1) % (n * m) ≤ 2 ^ 31 - 1 - 1 := Nat.mod_le _ _
    have heq : (2 ^ 31 - 1) - (2 ^ 31 - 1 - 1) % (n * m) - 1 =
        (2 ^ 31 - 1 - 1) - (2 ^ 31 - 1 - 1) % (n * m) := by omega
    rw [heq]
    exact sub_mod_mod _ _
  have hq1 : (q - 1) % (n * m) = 0 :=
    (stride_translate hstartmod (by omega) h2).mp h3
  have hstartle : 2 ^ 31 - 1 - (2 ^ 31 - 1 - 1) % (n * m) ≤ 2 ^ 31 - 1 := by omega
  refine ⟨⟨hq, by omega, hq1⟩, fun r hrp hrlt hrmod => ?_⟩
  have hrstart : r ≤ 2 ^ 31 - 1 - (2 ^ 31 - 1 - 1) % (n * m) := by
    have := le_scan_start (M := 2 ^ 31 - 1) hs (by have := hrp.two_le; omega)
      (by omega) hrmod
    omega
  by_contra hlt
  push_neg at hlt
  have hfalse := h4 r hlt hrstart
    ((stride_translate hstartmod (by have := hrp.two_le; omega) hrstart).mpr hrmod)
  have htrue := (is_prime_odd_iff r).mpr hrp
  rw [hfalse] at htrue
  exact Bool.noConfusion htrue

/-- If any prime `≤ 2^31 - 1` is congruent to 1 mod `n*m`,
`find_large_prime` returns one. -/
lemma find_large_prime_complete {n m r : Nat} (hn : 0 < n) (hm : 0 < m)
    (hrp : Nat.Prime r) (hrlt : r < 2 ^ 31) (hrmod : (r - 1) % (n * m) = 0) :
    ∃ q, find_large_prime n m = some q := by
  have hM : (2 : Nat) ^ 31 = 2147483648 := by norm_num
  have hs : 0 < n * m := Nat.mul_pos hn hm
  cases hfind : find_large_prime n m with
  | some q => exact ⟨q, rfl⟩
  | none =>
      exfalso
      rw [find_large_prime, if_neg (by omega)] at hfind
      have hstartmod : ((2 ^ 31 - 1 - (2 ^ 31 - 1 - 1) % (n * m)) - 1) % (n * m) = 0 := by
        have hb : (2 ^ 31 - 1 - 1) % (n * m) ≤ 2 ^ 31 - 1 - 1 := Nat.mod_le _ _
        have heq : (2 ^ 31 - 1) - (2 ^ 31 - 1 - 1) % (n * m) - 1 =
            (2 ^ 31 - 1 - 1) - (2 ^ 31 - 1 - 1) % (n * m) := by omega
        rw [heq]
        exact sub_mod_mod _ _
      have hrstart : r ≤ 2 ^ 31 - 1 - (2 ^ 31 - 1 - 1) % (n * m) := by
        have := le_scan_start (M := 2 ^ 31 - 1) hs (by have := hrp.two_le; omega)
          (by omega) hrmod
        omega
      have hfalse := PrimeSearch.scanDownBy_none _ _ hs _ _ (le_refl _) hfind r
        (by have := hrp.two_le; omega) hrstart
        ((stride_translate hstartmod (by have := hrp.two_le; omega) hrstart).mpr hrmod)
      have htrue := (is_prime_odd_iff r).mpr hrp
      rw [hfalse] at htrue
      exact Bool.noConfusion htrue

/-- Decoding the search predicate of `find_small_prime`. -/
lemma small_pred_iff (n m r : Nat) :
    (is_prime r && (r - 1) % m == 0 && (r - 1) % n == 0) = true ↔
      (Nat.Prime r ∧ (r - 1) % m = 0 ∧ (r - 1) % n = 0) := by
  simp [Bool.and_eq_true, beq_iff_eq, is_prime_odd_iff, and_assoc]

/-- A returned value of `find_small_prime` qualifies (and is smallest in
the scanned range `[1, 2^31 - 1)`). -/
lemma find_small_prime_sound {n m q : Nat} (h : find_small_prime n m = some q) :
    PrimeSearch.qualifies n m q ∧
    ∀ r, 1 ≤ r → r < q → ¬(Nat.Prime r ∧ (r - 1) % m = 0 ∧ (r - 1) % n = 0) := by
  have hM : (2 : Nat) ^ 31 = 2147483648 := by norm_num
  obtain ⟨hq, h1, h2, h3⟩ := PrimeSearch.scanUp_some _ _ _ _ _ h
  rw [small_pred_iff] at hq
  refine ⟨⟨hq.1, by omega, hq.2.2, hq.2.1⟩, fun r hr1 hr2 hr => ?_⟩
  have hfalse := h3 r hr1 hr2
  have htrue := (small_pred_iff n m r).mpr hr
  rw [hfalse] at htrue
  exact Bool.noConfusion htrue

/-- The generator loop is the generic bounded upward scan with the
primitive-root check as predicate. -/
lemma genLoop_eq_scanUp (q : Nat) : ∀ f g,
    genLoop q f g = PrimeSearch.scanUp (fun x => is_primitive_root x q) q f g := by
  intro f
  induction f with
  | zero => intro g; rfl
  | succ f ih => intro g; simp only [genLoop, PrimeSearch.scanUp, ih]

/-- For every odd prime `q` some `g` with `2 ≤ g < q` passes the
order-equals-`q-1` primitive-root check: the unit group of `ZMod q` is
cyclic of order `q - 1`, and the value of any generator is such a `g`. -/
lemma exists_primroot (q : Nat) (hq : Nat.Prime q) (hq2 : 2 < q) :
    ∃ g, 2 ≤ g ∧ g < q ∧ is_primitive_root g q = true := by
  haveI hfact : Fact (Nat.Prime q) := ⟨hq⟩
  haveI : NeZero q := ⟨hq.pos.ne'⟩
  haveI hf1 : Fact (1 < q) := ⟨hq.one_lt⟩
  obtain ⟨ζ, hζ⟩ := IsCyclic.exists_generator (α := (ZMod q)ˣ)
  have hord : orderOf ζ = q - 1 := by
    rw [orderOf_eq_card_of_forall_mem_zpowers hζ, Nat.card_eq_fintype_card,
      ZMod.card_units]
  have hglt : (ζ : ZMod q).val < q := ZMod.val_lt _
  have hgcast : (((ζ : ZMod q).val : Nat) : ZMod q) = (ζ : ZMod q) :=
    ZMod.natCast_rightInverse _
  have hgne0 : (ζ : ZMod q) ≠ 0 := Units.ne_zero ζ
  have hg0 : (ζ : ZMod q).val ≠ 0 := fun h => hgne0 ((ZMod.val_eq_zero _).mp h)
  have hg1 : (ζ : ZMod q).val ≠ 1 := by
    intro h
    have hζ1 : ζ ≠ 1 := by
      intro he
      rw [he, orderOf_one] at hord
      omega
    apply hζ1
    apply Units.val_eq_one.mp
    apply ZMod.val_injective q
    rw [h, ZMod.val_one]
  have hpow : ∀ k : Nat, ((ζ : ZMod q).val ^ k % q = 1 % q) ↔ ζ ^ k = 1 := by
    intro k
    rw [← ZMod.natCast_eq_natCast_iff']
    push_cast
    rw [hgcast]
    constructor
    · intro h
      apply Units.ext
      rw [Units.val_pow_eq_pow_val]
      simpa using h
    · intro h
      rw [← Units.val_pow_eq_pow_val, h, Units.val_one]
  have hone : (1 : Nat) % q = 1 := Nat.mod_eq_of_lt (by omega)
  have hprim : is_primitive_root (ζ : ZMod q).val q = true := by
    unfold is_primitive_root
    have hfind : (List.range' 1 (q - 1)).find?
        (fun k => (ζ : ZMod q).val ^ k % q == 1) = some (q - 1) := by
      apply PrimeSearch.find?_range'_eq
      · omega
      · omega
      · have hz : ζ ^ (q - 1) = 1 := by
          rw [← hord]
          exact pow_orderOf_eq_one ζ
        have h2 := (hpow (q - 1)).mpr hz
        rw [hone] at h2
        exact beq_iff_eq.mpr h2
      · intro k hk1 hk2
        have hnd : ¬ ζ ^ k = 1 := by
          intro honep
          have hdvd := orderOf_dvd_of_pow_eq_one honep
          rw [hord] at hdvd
          have := Nat.le_of_dvd (by omega) hdvd
          omega
        have hne : ¬ ((ζ : ZMod q).val ^ k % q = 1) := by
          intro hh
          exact hnd ((hpow k).mp (by rw [hone]; exact hh))
        exact beq_eq_false_iff_ne.mpr hne
    rw [hfind]
    simp
  exact ⟨(ζ : ZMod q).val, by omega, hglt, hprim⟩

end SetupZkp

/-- C2 fails as stated for `find_large_prime`: at `n = m = 2` the largest
prime `p < 2^31` with `(p-1) % 2 == 0` (twice) is `2^31 - 1 = 2147483647`
itself, but `find_large_prime` scans only candidates congruent to 1
modulo `n*m = 4` and `2147483647 ≡ 3 (mod 4)` is never visited, so it
cannot return the largest qualifying prime. -/
theorem C2_counterexample :
    PrimeSearch.qualifies 2 2 2147483647 ∧
    (∀ r, PrimeSearch.qualifies 2 2 r → r ≤ 2147483647) ∧
    SetupZkp.find_large_prime 2 2 ≠ some 2147483647 := by
  have hM : (2 : Nat) ^ 31 = 2147483648 := by norm_num
  refine ⟨⟨PrimeSearch.prime_mersenne31, by norm_num, by norm_num, by norm_num⟩,
    ?_, ?_⟩
  · intro r hr
    have := hr.2.1
    omega
  · intro h
    obtain ⟨⟨hp, hlt, hmod⟩, -⟩ :=
      SetupZkp.find_large_prime_sound (by norm_num) (by norm_num) h
    norm_num at hmod

/-- C2 amended: `find_largest_prime` (scanning every integer downward)
returns the largest prime `p < 2^31` with `(p-1) % n == 0` and
`(p-1) % m == 0` whenever one exists.  `find_large_prime` instead
returns the largest prime `p < 2^31` with `(p-1) % (n*m) == 0` — a
sufficient but strictly stronger condition — whenever such a prime
exists; its result satisfies both original congruences but need not be
the largest prime satisfying them. -/
theorem C2_amended_prime_search (n m : Nat) (hn : 0 < n) (hm : 0 < m) :
    (∀ q, PrimeGeneratorFinder.find_largest_prime n m = some q →
      PrimeSearch.qualifies n m q ∧ ∀ r, PrimeSearch.qualifies n m r → r ≤ q) ∧
    ((∃ r, PrimeSearch.qualifies n m r) →
      ∃ q, PrimeGeneratorFinder.find_largest_prime n m = some q) ∧
    (∀ q, SetupZkp.find_large_prime n m = some q →
      (Nat.Prime q ∧ q < 2 ^ 31 ∧ (q - 1) % (n * m) = 0 ∧
        (q - 1) % n = 0 ∧ (q - 1) % m = 0) ∧
      ∀ r, Nat.Prime r → r < 2 ^ 31 → (r - 1) % (n * m) = 0 → r ≤ q) ∧
    ((∃ r, Nat.Prime r ∧ r < 2 ^ 31 ∧ (r - 1) % (n * m) = 0) →
      ∃ q, SetupZkp.find_large_prime n m = some q) := by
  refine ⟨?_, ?_, ?_, ?_⟩
  · intro q h
    exact PrimeGeneratorFinder.find_largest_prime_sound h
  · rintro ⟨r, hr⟩
    exact PrimeGeneratorFinder.find_largest_prime_complete hr
  · intro q h
    obtain ⟨⟨hp, hlt, hmod⟩, hmax⟩ := SetupZkp.find_large_prime_sound hn hm h
    have hd := Nat.dvd_of_mod_eq_zero hmod
    exact ⟨⟨hp, hlt, hmod,
      PrimeSearch.mod_zero_of_dvd (dvd_trans (dvd_mul_right n m) hd),
      PrimeSearch.mod_zero_of_dvd (dvd_trans (dvd_mul_left m n) hd)⟩, hmax⟩
  · rintro ⟨r, hrp, hrlt, hrmod⟩
    exact SetupZkp.find_large_prime_complete hn hm hrp hrlt hrmod

/-- Witness for C2 (amended): at `n = m = 1` the downward full scan finds
`2147483647`, the largest prime below `2^31` (both congruences are mod 1,
hence trivial); derived from the amended theorem plus the Lucas-Lehmer
certificate rather than by evaluating the 2^31-step loop. -/
theorem C2_witness :
    PrimeGeneratorFinder.find_largest_prime 1 1 = some 2147483647 := by
  have hM : (2 : Nat) ^ 31 = 2147483648 := by norm_num
  have hqual : PrimeSearch.qualifies 1 1 2147483647 :=
    ⟨PrimeSearch.prime_mersenne31, by norm_num, by norm_num, by norm_num⟩
  obtain ⟨q, hq⟩ :=
    (C2_amended_prime_search 1 1 (by norm_num) (by norm_num)).2.1 ⟨_, hqual⟩
  obtain ⟨hqq, hmax⟩ :=
    (C2_amended_prime_search 1 1 (by norm_num) (by norm_num)).1 q hq
  have h1 := hmax 2147483647 hqual
  have h2 : q < 2 ^ 31 := hqq.2.1
  have hq31 : q = 2147483647 := by omega
  rw [hq31] at hq
  exact hq

/-- C6 fails as stated at the edge prime `p = 2`, which the search can
find: `find_small_prime 1 1 = some 2`, but the generator loop requires
`g < p` starting at `g = 2`, so for `p = 2` it never runs and the
pipeline returns `None` — even though `g = 3` passes the order-based
primitive-root check modulo 2 (order of 3 mod 2 is 1 = p - 1). -/
theorem C6_counterexample :
    SetupZkp.find_small_prime 1 1 = some 2 ∧
    SetupZkp.find_largest_prime_and_generator (SetupZkp.find_small_prime 1 1) = none ∧
    SetupZkp.is_primitive_root 3 2 = true := by decide

/-- C6 amended: for every odd prime `q` (all primes the search can return
except 2), the generator loop returns the smallest integer `g ≥ 2` whose
multiplicative order modulo `q` is `q - 1`; in particular it returns 3
for `q = 7` (see the witness). -/
theorem C6_amended_generator_search (q : Nat) (hq : Nat.Prime q) (hq2 : 2 < q) :
    ∃ g, SetupZkp.find_generator q = some g ∧
      SetupZkp.is_primitive_root g q = true ∧ 2 ≤ g ∧
      ∀ g', 2 ≤ g' → SetupZkp.is_primitive_root g' q = true → g ≤ g' := by
  obtain ⟨g0, hg02, hg0lt, hg0prim⟩ := SetupZkp.exists_primroot q hq hq2
  cases hfind : SetupZkp.find_generator q with
  | none =>
      exfalso
      rw [SetupZkp.find_generator, SetupZkp.genLoop_eq_scanUp] at hfind
      have hfalse := PrimeSearch.scanUp_none _ q q 2 (by omega) hfind g0 hg02 hg0lt
      rw [hg0prim] at hfalse
      exact Bool.noConfusion hfalse
  | some g =>
      rw [SetupZkp.find_generator, SetupZkp.genLoop_eq_scanUp] at hfind
      obtain ⟨hgp, hg2, hglt, hmin⟩ := PrimeSearch.scanUp_some _ q q 2 g hfind
      refine ⟨g, rfl, hgp, hg2, fun g' hg'2 hg'prim => ?_⟩
      by_contra hlt
      push_neg at hlt
      have hfalse := hmin g' hg'2 hlt
      rw [hg'prim] at hfalse
      exact Bool.noConfusion hfalse

/-- Witness for C6 (amended) at the toy prime 7: the loop returns 3, and
the amended theorem applies. -/
theorem C6_witness :
    SetupZkp.find_generator 7 = some 3 ∧
    (∃ g, SetupZkp.find_generator 7 = some g ∧
      SetupZkp.is_primitive_root g 7 = true ∧ 2 ≤ g ∧
      ∀ g', 2 ≤ g' → SetupZkp.is_primitive_root g' 7 = true → g ≤ g') :=
  ⟨by decide, C6_amended_generator_search 7 (by norm_num) (by norm_num)⟩

/-- C7: when no prime below `2^31` satisfies both congruences, every
prime-search function returns `None` — never a sentinel number. -/
theorem C7_search_exhaustion (n m : Nat) (hn : 0 < n) (hm : 0 < m)
    (h : ∀ r, ¬ PrimeSearch.qualifies n m r) :
    PrimeGeneratorFinder.find_largest_prime n m = none ∧
    SetupZkp.find_small_prime n m = none ∧
    SetupZkp.find_large_prime n m = none := by
  refine ⟨?_, ?_, ?_⟩
  · cases hf : PrimeGeneratorFinder.find_largest_prime n m with
    | none => rfl
    | some q =>
        exact absurd (PrimeGeneratorFinder.find_largest_prime_sound hf).1 (h q)
  · cases hf : SetupZkp.find_small_prime n m with
    | none => rfl
    | some q =>
        exact absurd (SetupZkp.find_small_prime_sound hf).1 (h q)
  · cases hf : SetupZkp.find_large_prime n m with
    | none => rfl
    | some q =>
        exfalso
        obtain ⟨⟨hp, hlt, hmod⟩, -⟩ := SetupZkp.find_large_prime_sound hn hm hf
        have hd := Nat.dvd_of_mod_eq_zero hmod
        exact h q ⟨hp, hlt,
          PrimeSearch.mod_zero_of_dvd (dvd_trans (dvd_mul_right n m) hd),
          PrimeSearch.mod_zero_of_dvd (dvd_trans (dvd_mul_left m n) hd)⟩

/-- Witness for C7 at `n = 2^31`, `m = 1`: a qualifying prime would need
`p - 1` divisible by `2^31` while `p < 2^31`, forcing `p = 1`, which is
not prime; all three searches return `None`. -/
theorem C7_witness :
    PrimeGeneratorFinder.find_largest_prime (2 ^ 31) 1 = none ∧
    SetupZkp.find_small_prime (2 ^ 31) 1 = none ∧
    SetupZkp.find_large_prime (2 ^ 31) 1 = none :=
  C7_search_exhaustion (2 ^ 31) 1 (by norm_num) (by norm_num)
    (by
      rintro r ⟨hp, hlt, hmod, -⟩
      have hd := Nat.dvd_of_mod_eq_zero hmod
      have h2 := hp.two_le
      rcases Nat.eq_zero_or_pos (r - 1) with h0 | hpos
      · omega
      · have := Nat.le_of_dvd hpos hd
        omega)
